import Mathlib

/-!
Verification of the meshgate core subsystem: NodeFilter, RateLimiter,
SessionManager and ContentChunker, shallowly embedded from the Python
sources under src/meshgate/core.  Python dicts are modelled as
insertion-ordered association lists over String keys; timestamps (the
monotonic clock and datetime values) are modelled as integers; a Python
function that can raise is modelled as returning an Option.
-/

/-- Association-list lookup, modelling Python `d.get(k)` / `k in d`:
the first binding of the key wins (dict keys are unique anyway). -/
def alookup {α : Type} (l : List (String × α)) (k : String) : Option α :=
  match l with
  | [] => none
  | (k', v) :: rest => if k' = k then some v else alookup rest k

/-- Association-list store, modelling Python `d[k] = v`: replaces the
binding in place if the key is present, otherwise appends it (a Python
dict keeps insertion order and a new key goes to the end). -/
def aupdate {α : Type} (l : List (String × α)) (k : String) (v : α) :
    List (String × α) :=
  match l with
  | [] => [(k, v)]
  | (k', v') :: rest =>
    if k' = k then (k, v) :: rest else (k', v') :: aupdate rest k v

/-- Association-list delete, modelling Python `del d[k]`. -/
def adelete {α : Type} (l : List (String × α)) (k : String) :
    List (String × α) :=
  l.filter (fun p => decide ¬(p.1 = k))

/-- The keys of an association list are pairwise distinct: the invariant
every Python dict maintains. -/
abbrev keysNodup {α : Type} (l : List (String × α)) : Prop :=
  (l.map Prod.fst).Nodup

/-! ## NodeFilter (src/meshgate/core/node_filter.py)

The Python class stores an allowlist set, a denylist set and a
`require_allowlist` flag; sets of node ids are modelled as lists with
membership (only membership and copying are used by the code). -/

structure NodeFilter where
  allowlist : List String
  denylist : List String
  require_allowlist : Bool

/-- `NodeFilter.is_allowed`, line for line from the source: the denylist
blocks first; then, if the allowlist is required, absence from it blocks;
otherwise the node is allowed. -/
def NodeFilter.is_allowed (f : NodeFilter) (node_id : String) : Bool :=
  if node_id ∈ f.denylist then false
  else if f.require_allowlist ∧ node_id ∉ f.allowlist then false
  else true

/-! ## RateLimiter (src/meshgate/core/rate_limiter.py)

Per-node sliding-window limiter.  The per-node deque of monotonic-clock
floats becomes a list of integers, oldest first; `max_messages` and
`window_seconds` are Python ints, kept as integers (the code compares a
non-negative length against `max_messages`, which may be ≤ 0).
`check` can raise an IndexError (`timestamps[0]` on an empty deque), so
it returns an Option. -/

structure RateLimitResult where
  allowed : Bool
  retry_after_seconds : Option Int := none
deriving DecidableEq, Repr

structure RateLimiter where
  max_messages : Int
  window_seconds : Int
  enabled : Bool
  node_timestamps : List (String × List Int)

/-- `RateLimiter.check`, from the source.  `now` is the value the
monotonic clock returns at this call.  Disabled → allow without
recording.  Otherwise: get-or-create the node's deque, drop leading
timestamps `< cutoff` (the while/popleft loop is exactly dropWhile),
allow-and-append when still under `max_messages`, else reject with
`retry_after = max 0 ((oldest + window) - now)`.  `none` models the
IndexError raised by `timestamps[0]` when the rejection branch is
reached with an empty deque. -/
def RateLimiter.check (rl : RateLimiter) (node_id : String) (now : Int) :
    Option (RateLimitResult × RateLimiter) :=
  if rl.enabled = false then some (⟨true, none⟩, rl)
  else
    let cutoff := now - rl.window_seconds
    let timestamps := (alookup rl.node_timestamps node_id).getD []
    let timestamps := timestamps.dropWhile (fun x => decide (x < cutoff))
    if (timestamps.length : Int) < rl.max_messages then
      some (⟨true, none⟩,
        { rl with node_timestamps :=
            aupdate rl.node_timestamps node_id (timestamps ++ [now]) })
    else
      match timestamps with
      | [] => none
      | oldest :: _ =>
        some (⟨false, some (max 0 ((oldest + rl.window_seconds) - now))⟩,
          { rl with node_timestamps :=
              aupdate rl.node_timestamps node_id timestamps })

/-- Runs a sequence of `check` calls for one node at the given clock
values, collecting the results; stops with `none` if any call raises. -/
def RateLimiter.runChecks (rl : RateLimiter) (node_id : String) :
    List Int → Option (List RateLimitResult × RateLimiter)
  | [] => some ([], rl)
  | t :: ts =>
    match rl.check node_id t with
    | none => none
    | some (r, rl') =>
      match rl'.runChecks node_id ts with
      | none => none
      | some (rs, rl'') => some (r :: rs, rl'')

/-- `RateLimiter.cleanup_inactive`'s selection test on one node's
timestamps, from the source: `not timestamps or timestamps[-1] < cutoff`
(no timestamps at all, or the newest one is older than the cutoff). -/
def inactivePred (cutoff : Int) (ts : List Int) : Bool :=
  match ts.getLast? with
  | none => true
  | some t => decide (t < cutoff)

/-- `RateLimiter.cleanup_inactive`, from the source: collect the node ids
whose tracking data passes `inactivePred`, delete each collected id from
the map, and return how many were collected. -/
def RateLimiter.cleanup_inactive (rl : RateLimiter) (inactive_seconds : Int)
    (now : Int) : Nat × RateLimiter :=
  let cutoff := now - inactive_seconds
  let inactive_nodes :=
    (rl.node_timestamps.filter (fun p => inactivePred cutoff p.2)).map Prod.fst
  let m := inactive_nodes.foldl (fun l nid => adelete l nid) rl.node_timestamps
  (inactive_nodes.length, { rl with node_timestamps := m })

/-! ## Session and SessionManager (src/meshgate/core/session_manager.py)

`SessionManager` is embedded from the source.  The `Session` class it
stores lives in src/meshgate/core/session.py, which is not part of the
provided sources, so `Session` is modelled from the spec. -/

/-- Modelled from the spec: the `Session` dataclass
(src/meshgate/core/session.py is missing from the sources; only the
importing module and the call sites appear).  Per §3 of the spec it has
immutable `node_id`, an `active_plugin` name (`none` = at menu) and a
`last_activity` timestamp updated on every access; `plugin_state` is
omitted here because it is opaque to the session manager and no claim
touches it.  A fresh `Session(node_id=...)` stamps `last_activity` with
the creation time. -/
structure Session where
  node_id : String
  active_plugin : Option String
  last_activity : Int
deriving DecidableEq, Repr

/-- Modelled from the spec: `Session.update_activity` refreshes
`last_activity` to the current time (§3: "timestamp, updated on every
access"). -/
def Session.update_activity (s : Session) (now : Int) : Session :=
  { s with last_activity := now }

structure SessionManager where
  sessions : List (String × Session)
  timeout : Int
  max_sessions : Int

/-- The first entry attaining the minimal `last_activity`, modelling
`min(self._sessions.keys(), key=lambda nid: ...last_activity)` —
Python's `min` keeps the earliest of equally-old entries in iteration
(= insertion) order. -/
def oldestEntry : List (String × Session) → Option (String × Session)
  | [] => none
  | p :: rest =>
    some (match oldestEntry rest with
      | none => p
      | some q => if q.2.last_activity < p.2.last_activity then q else p)

/-- `SessionManager._evict_oldest_session`, from the source: no sessions →
nothing to do; otherwise delete the entry with the oldest
`last_activity` and report its node id. -/
def SessionManager.evict_oldest_session (sm : SessionManager) :
    Option String × SessionManager :=
  match oldestEntry sm.sessions with
  | none => (none, sm)
  | some q => (some q.1, { sm with sessions := adelete sm.sessions q.1 })

/-- The `while len(self._sessions) >= self._max_sessions:
_evict_oldest_session()` loop of `get_session`, embedded with explicit
fuel.  Each pass that fires shortens the session list, so any fuel
larger than the initial number of sessions makes the embedding exact;
`get_session` passes `length + 1`. -/
def SessionManager.evictLoopFuel : Nat → SessionManager → SessionManager
  | 0, sm => sm
  | Nat.succ fuel, sm =>
    if sm.max_sessions ≤ (sm.sessions.length : Int) then
      SessionManager.evictLoopFuel fuel (sm.evict_oldest_session).2
    else sm

/-- `SessionManager.get_session`, from the source: if the node is
unknown, first (only when a positive cap is set) run the eviction loop,
then create its session stamped with the current time; in all cases
refresh the found session's `last_activity` (the Python code mutates the
object held by the map, so the map entry and the returned session agree)
and return it.  The `none` arm models the impossible KeyError of
`self._sessions[node_id]` right after insertion. -/
def SessionManager.get_session (sm : SessionManager) (node_id : String)
    (now : Int) : Option Session × SessionManager :=
  let sm₁ :=
    if (alookup sm.sessions node_id).isNone then
      let sm' := if 0 < sm.max_sessions then
          SessionManager.evictLoopFuel (sm.sessions.length + 1) sm
        else sm
      { sm' with sessions :=
          aupdate sm'.sessions node_id ⟨node_id, none, now⟩ }
    else sm
  match alookup sm₁.sessions node_id with
  | none => (none, sm₁)
  | some s =>
    let s' := s.update_activity now
    (some s', { sm₁ with sessions := aupdate sm₁.sessions node_id s' })

/-- `SessionManager.remove_session`, from the source. -/
def SessionManager.remove_session (sm : SessionManager) (node_id : String) :
    Bool × SessionManager :=
  if (alookup sm.sessions node_id).isSome then
    (true, { sm with sessions := adelete sm.sessions node_id })
  else (false, sm)

/-- `SessionManager.cleanup_expired_sessions`, from the source: collect
the node ids whose idle time `now - last_activity` strictly exceeds the
timeout, delete each collected id, return how many were collected. -/
def SessionManager.cleanup_expired_sessions (sm : SessionManager)
    (now : Int) : Nat × SessionManager :=
  let expired_nodes :=
    (sm.sessions.filter
      (fun p => decide (sm.timeout < now - p.2.last_activity))).map Prod.fst
  let m := expired_nodes.foldl (fun l nid => adelete l nid) sm.sessions
  (expired_nodes.length, { sm with sessions := m })

/-- `SessionManager.active_session_count`, from the source. -/
def SessionManager.active_session_count (sm : SessionManager) : Nat :=
  sm.sessions.length

/-! ## ContentChunker

Modelled from the spec (§4.3): the repository's ContentChunker source
file is not under src/ (the spec assigns it ≈15% of the core but no file
for it is provided).  Text is a list of characters.  A fragment carries
its payload slice and its continuation marker — empty on the final
fragment and on an unsplit message; the rendered fragment is
payload ++ marker, so a fragment's wire size is the sum of the two
lengths.  Per the spec, the marker width is reserved from the per-chunk
budget before slicing the payload, and a limit too small to fit even the
marker overhead fails loudly (modelled as `none`). -/

structure Fragment where
  payload : List Char
  marker : List Char
deriving DecidableEq, Repr

/-- The deterministic continuation marker appended to every non-final
fragment ("more to follow"). -/
def contMarker : List Char := ['.', '.', '.']

/-- The marker width reserved from each chunk's budget. -/
def markerOverhead : Nat := contMarker.length

/-- A fragment's total wire size: payload plus marker. -/
def Fragment.size (f : Fragment) : Nat := f.payload.length + f.marker.length

/-- Slices the text into payloads of `budget` characters, marking every
fragment but the last as continued.  Only called with a positive budget
(`split` checks the limit exceeds the marker overhead first); the
`budget = 0` guard is a totality guard for that unreachable case. -/
def buildFragments (budget : Nat) (s : List Char) : List Fragment :=
  if h : s = [] ∨ budget = 0 then []
  else
    let rest := s.drop budget
    if rest.isEmpty then [⟨s.take budget, []⟩]
    else ⟨s.take budget, contMarker⟩ :: buildFragments budget rest
termination_by s.length
decreasing_by
  push_neg at h
  simp only [List.length_drop]
  rcases h with ⟨h1, h2⟩
  have : s.length ≠ 0 := fun hc => h1 (List.length_eq_zero.1 hc)
  omega

/-- Modelled from the spec: `ContentChunker.split(text, limit)`.  Text
within the limit passes through as one unmarked fragment; a limit that
cannot even fit the marker overhead raises (`none`); otherwise the text
is sliced against the budget that remains after reserving the marker
width. -/
def ContentChunker.split (text : List Char) (limit : Nat) :
    Option (List Fragment) :=
  if text.length ≤ limit then some [⟨text, []⟩]
  else if limit ≤ markerOverhead then none
  else some (buildFragments (limit - markerOverhead) text)

/-! ## Heap model for the defensive-copy accessors (C8)

The defensive-copy behaviour of NodeFilter's `allowlist`/`denylist`
properties is about Python object identity, so for this one claim the
sets live in an explicit heap: a store of cells indexed by natural
numbers.  `self._allowlist.copy()` allocates a fresh cell holding the
same contents; in-place mutation (`add`/`discard`/...) overwrites a
cell. -/

abbrev SetStore := List (List String)

/-- NodeFilter state under the heap model: references to the two set
objects plus the flag. -/
structure NodeFilterRefs where
  allowRef : Nat
  denyRef : Nat
  require_allowlist : Bool

/-- Dereference a cell (out-of-range reads never occur under the
well-formedness hypotheses used below). -/
def readCell (σ : SetStore) (r : Nat) : List String := (σ.get? r).getD []

/-- In-place mutation of the set object behind `r`. -/
def writeCell (σ : SetStore) (r : Nat) (v : List String) : SetStore :=
  σ.set r v

/-- `NodeFilter.is_allowed` reading its two sets through the heap;
the decision logic is the one from the source. -/
def NodeFilterRefs.is_allowed (σ : SetStore) (f : NodeFilterRefs)
    (nid : String) : Bool :=
  if nid ∈ readCell σ f.denyRef then false
  else if f.require_allowlist ∧ nid ∉ readCell σ f.allowRef then false
  else true

/-- The `allowlist`/`denylist` property accessor,
`return self._allowlist.copy()`: allocate a fresh cell containing a copy
of the internal set's contents and hand back its reference. -/
def copyAccessor (σ : SetStore) (r : Nat) : Nat × SetStore :=
  (σ.length, σ ++ [readCell σ r])

/-! ## Theorems -/

/-- C3: `is_allowed` is membership logic with denylist precedence:
it returns true iff the node is not denied and (the allowlist is not
required or the node is allowlisted); a denied node is always rejected;
with an empty allowlist the flag decides everything for non-denied
nodes. -/
theorem node_filter_is_allowed_spec (f : NodeFilter) (node_id : String) :
    (f.is_allowed node_id = true ↔
      (node_id ∉ f.denylist ∧
        (f.require_allowlist = false ∨ node_id ∈ f.allowlist))) ∧
    (node_id ∈ f.denylist → f.is_allowed node_id = false) ∧
    (f.allowlist = [] → f.require_allowlist = false →
      node_id ∉ f.denylist → f.is_allowed node_id = true) ∧
    (f.allowlist = [] → f.require_allowlist = true →
      f.is_allowed node_id = false) := by
  unfold NodeFilter.is_allowed
  by_cases hd : node_id ∈ f.denylist <;>
    by_cases hr : f.require_allowlist <;>
      by_cases ha : node_id ∈ f.allowlist <;>
        simp [hd, hr, ha] <;> intro h <;> simp [h] at ha ⊢

/-- Witness for C3: a concrete filter with a denied node. -/
theorem node_filter_is_allowed_spec_witness :
    let f : NodeFilter := ⟨["a"], ["b"], true⟩
    (f.is_allowed "b" = true ↔
      ("b" ∉ f.denylist ∧
        (f.require_allowlist = false ∨ "b" ∈ f.allowlist))) ∧
    ("b" ∈ f.denylist → f.is_allowed "b" = false) ∧
    (f.allowlist = [] → f.require_allowlist = false →
      "b" ∉ f.denylist → f.is_allowed "b" = true) ∧
    (f.allowlist = [] → f.require_allowlist = true →
      f.is_allowed "b" = false) :=
  node_filter_is_allowed_spec ⟨["a"], ["b"], true⟩ "b"

/-- A dropWhile that drops nothing: every element fails the predicate. -/
theorem dropWhile_no_drop {p : Int → Bool} {l : List Int}
    (h : ∀ x ∈ l, p x = false) : l.dropWhile p = l := by
  cases l with
  | nil => rfl
  | cons x xs =>
    rw [List.dropWhile_cons]
    simp [h x (List.mem_cons_self x xs)]

/-- C9: `check` is not total when enabled with `max_messages ≤ 0`: a node
with no recorded timestamps reaches the rejection branch and indexes the
empty deque (modelled as `none`); with `max_messages ≥ 1` or rate
limiting disabled, `check` always returns a result. -/
theorem rate_limiter_check_totality :
    (∀ (rl : RateLimiter) (node_id : String) (now : Int),
        rl.enabled = true → rl.max_messages ≤ 0 →
        (alookup rl.node_timestamps node_id).getD [] = [] →
        rl.check node_id now = none) ∧
    (∀ (rl : RateLimiter) (node_id : String) (now : Int),
        (1 ≤ rl.max_messages ∨ rl.enabled = false) →
        (rl.check node_id now).isSome = true) := by
  constructor
  · intro rl node_id now hen hmax hts
    simp only [RateLimiter.check, hen, hts]
    simp only [List.dropWhile_nil, List.length_nil, Nat.cast_zero]
    rw [if_neg (by simp), if_neg (by omega)]
  · intro rl node_id now h
    rcases h with hmax | hdis
    · by_cases hen : rl.enabled = false
      · simp [RateLimiter.check, hen]
      · simp only [RateLimiter.check]
        rw [if_neg hen]
        set ts := ((alookup rl.node_timestamps node_id).getD []).dropWhile
          (fun x => decide (x < now - rl.window_seconds)) with hts
        by_cases hlt : (ts.length : Int) < rl.max_messages
        · rw [if_pos hlt]
          rfl
        · rw [if_neg hlt]
          rcases ts with _ | ⟨oldest, rest⟩
          · exfalso
            simp at hlt
            omega
          · rfl
    · simp [RateLimiter.check, hdis]

/-- Witness for C9 at concrete limiters. -/
theorem rate_limiter_check_totality_witness :
    RateLimiter.check ⟨0, 60, true, []⟩ "n" 0 = none ∧
    (RateLimiter.check ⟨1, 60, true, []⟩ "n" 0).isSome = true :=
  ⟨rate_limiter_check_totality.1 ⟨0, 60, true, []⟩ "n" 0 rfl (by decide) rfl,
   rate_limiter_check_totality.2 ⟨1, 60, true, []⟩ "n" 0 (Or.inl (by decide))⟩

/-- `runChecks` over a concatenation is the sequential composition. -/
theorem runChecks_append (nid : String) :
    ∀ (ts1 ts2 : List Int) (rl : RateLimiter),
      RateLimiter.runChecks rl nid (ts1 ++ ts2)
        = match RateLimiter.runChecks rl nid ts1 with
          | none => none
          | some (rs1, rl') =>
            match RateLimiter.runChecks rl' nid ts2 with
            | none => none
            | some (rs2, rl'') => some (rs1 ++ rs2, rl'') := by
  intro ts1
  induction ts1 with
  | nil =>
    intro ts2 rl
    simp only [List.nil_append, RateLimiter.runChecks]
    rcases RateLimiter.runChecks rl nid ts2 with _ | ⟨rs2, rl''⟩ <;> simp
  | cons t ts1 ih =>
    intro ts2 rl
    rcases hc : rl.check nid t with _ | ⟨r, rl'⟩
    · simp only [List.cons_append, RateLimiter.runChecks, hc]
    · simp only [List.cons_append, RateLimiter.runChecks, hc, List.append_eq,
        ih ts2 rl']
      rcases RateLimiter.runChecks rl' nid ts1 with _ | ⟨rs1, rl''⟩
      · rfl
      · rcases h2 : RateLimiter.runChecks rl'' nid ts2 with _ | ⟨rs2, rl3⟩ <;>
          simp [h2]

/-- Looking up the head key of an association list. -/
theorem alookup_head {α : Type} (k : String) (v : α) (rest : List (String × α)) :
    alookup ((k, v) :: rest) k = some v := by
  simp [alookup]

/-- Storing at the head key of an association list. -/
theorem aupdate_head {α : Type} (k : String) (v w' : α)
    (rest : List (String × α)) :
    aupdate ((k, w') :: rest) k v = (k, v) :: rest := by
  simp [aupdate]

/-- Evaluation of an enabled `check` on a map holding exactly one node,
when the drop phase keeps every recorded timestamp. -/
theorem check_eval_single (m w : Int) (nid : String) (prev : List Int)
    (now : Int)
    (hdrop : prev.dropWhile (fun x => decide (x < now - w)) = prev) :
    RateLimiter.check ⟨m, w, true, [(nid, prev)]⟩ nid now
      = if (prev.length : Int) < m then
          some (⟨true, none⟩, ⟨m, w, true, [(nid, prev ++ [now])]⟩)
        else
          match prev with
          | [] => none
          | oldest :: _ =>
            some (⟨false, some (max 0 ((oldest + w) - now))⟩,
              ⟨m, w, true, [(nid, prev)]⟩) := by
  simp only [RateLimiter.check]
  rw [if_neg (by simp)]
  simp only [alookup_head, Option.getD_some, hdrop, aupdate_head]

/-- One allowed `check` step on a single-node map: nothing expires
(every recorded timestamp is within the window of `now`), the count is
under the limit, so the call is allowed and appends `now`. -/
theorem check_allowed_step (m w : Int) (nid : String) (prev : List Int)
    (now : Int) (hkeep : ∀ x ∈ prev, ¬(x < now - w))
    (hlt : (prev.length : Int) < m) :
    RateLimiter.check ⟨m, w, true, [(nid, prev)]⟩ nid now
      = some (⟨true, none⟩, ⟨m, w, true, [(nid, prev ++ [now])]⟩) := by
  have hdrop : prev.dropWhile (fun x => decide (x < now - w)) = prev :=
    dropWhile_no_drop (fun x hx => by simp [hkeep x hx])
  rw [check_eval_single m w nid prev now hdrop, if_pos hlt]

/-- Invariant for runs that stay under the limit: starting from a map
holding exactly `prev` for the node, a sequence of calls whose times all
lie in the window `[a, a + w)` containing `prev` and whose total count
stays ≤ `max_messages` is entirely allowed and accumulates the times. -/
theorem runChecks_allowed_inv (m w a : Int) (nid : String) :
    ∀ (ts prev : List Int),
      (∀ x ∈ prev, a ≤ x) → (∀ x ∈ ts, a ≤ x ∧ x < a + w) →
      ((prev.length : Int) + ts.length ≤ m) →
      ∃ rs, RateLimiter.runChecks ⟨m, w, true, [(nid, prev)]⟩ nid ts
          = some (rs, ⟨m, w, true, [(nid, prev ++ ts)]⟩) ∧
        ∀ r ∈ rs, r.allowed = true := by
  intro ts
  induction ts with
  | nil =>
    intro prev hprev hwin hlen
    exact ⟨[], by simp [RateLimiter.runChecks], by simp⟩
  | cons t ts ih =>
    intro prev hprev hwin hlen
    have hta : a ≤ t ∧ t < a + w := hwin t (List.mem_cons_self t ts)
    have hstep := check_allowed_step m w nid prev t
      (fun x hx => by have := hprev x hx; omega)
      (by simp only [List.length_cons] at hlen; push_cast at hlen; omega)
    have hprev' : ∀ x ∈ prev ++ [t], a ≤ x := by
      intro x hx
      rcases List.mem_append.1 hx with h | h
      · exact hprev x h
      · simp at h
        omega
    have hwin' : ∀ x ∈ ts, a ≤ x ∧ x < a + w :=
      fun x hx => hwin x (List.mem_cons_of_mem t hx)
    have hlen' : ((prev ++ [t]).length : Int) + ts.length ≤ m := by
      simp only [List.length_append, List.length_cons, List.length_nil] at hlen ⊢
      push_cast at hlen ⊢
      omega
    obtain ⟨rs, hrun, hall⟩ := ih (prev ++ [t]) hprev' hwin' hlen'
    refine ⟨⟨true, none⟩ :: rs, ?_, ?_⟩
    · simp only [RateLimiter.runChecks, hstep, hrun, List.append_assoc,
        List.singleton_append]
    · intro r hr
      rcases List.mem_cons.1 hr with h | h
      · rw [h]
      · exact hall r h

/-- C2: sliding-window guarantee, from a limiter with no history for the
node (enabled, `max_messages = m ≥ 1`, window `w`): any sequence of at
most `m` calls whose clock values all lie in one window `[a, a + w)` is
entirely allowed; and after `m` such calls, an (`m`+1)-th call still
inside the window is rejected with `retry_after_seconds` strictly
positive, being `(oldest remaining + w) - now` floored at zero. -/
theorem rate_limiter_sliding_window (m w a : Int) (nid : String)
    (hm : 1 ≤ m) :
    (∀ ts : List Int, List.Chain' (· ≤ ·) ts →
        (∀ x ∈ ts, a ≤ x ∧ x < a + w) → (ts.length : Int) ≤ m →
        ∃ rs rl', RateLimiter.runChecks ⟨m, w, true, []⟩ nid ts
            = some (rs, rl') ∧ ∀ r ∈ rs, r.allowed = true) ∧
    (∀ (ts : List Int) (tlast : Int), List.Chain' (· ≤ ·) (ts ++ [tlast]) →
        (∀ x ∈ ts ++ [tlast], a ≤ x ∧ x < a + w) →
        (ts.length : Int) = m →
        ∃ rs r rl', RateLimiter.runChecks ⟨m, w, true, []⟩ nid (ts ++ [tlast])
            = some (rs ++ [r], rl') ∧
          (∀ x ∈ rs, x.allowed = true) ∧ r.allowed = false ∧
          ∃ v, r.retry_after_seconds = some v ∧ 0 < v) := by
  have hfirst : ∀ t : Int, RateLimiter.check ⟨m, w, true, []⟩ nid t
      = some (⟨true, none⟩, ⟨m, w, true, [(nid, [t])]⟩) := by
    intro t
    simp only [RateLimiter.check]
    rw [if_neg (by simp)]
    simp only [alookup, Option.getD_none, List.dropWhile_nil, List.length_nil]
    rw [if_pos (by push_cast; omega)]
    simp [aupdate]
  have hrunfull : ∀ (ts : List Int), (∀ x ∈ ts, a ≤ x ∧ x < a + w) →
      (ts.length : Int) ≤ m →
      ∃ rs, RateLimiter.runChecks ⟨m, w, true, []⟩ nid ts
          = some (rs, ⟨m, w, true, if ts = [] then [] else [(nid, ts)]⟩) ∧
        ∀ r ∈ rs, r.allowed = true := by
    intro ts hwin hlen
    rcases ts with _ | ⟨t, ts'⟩
    · exact ⟨[], by simp [RateLimiter.runChecks], by simp⟩
    · have hta := hwin t (List.mem_cons_self t ts')
      have hwin' : ∀ x ∈ ts', a ≤ x ∧ x < a + w :=
        fun x hx => hwin x (List.mem_cons_of_mem t hx)
      have hlen' : (([t] : List Int).length : Int) + ts'.length ≤ m := by
        simp only [List.length_cons] at hlen
        push_cast at hlen ⊢
        simp only [List.length_cons, List.length_nil]
        push_cast
        omega
      obtain ⟨rs, hrun, hall⟩ := runChecks_allowed_inv m w a nid ts' [t]
        (by intro x hx; simp at hx; omega) hwin' hlen'
      refine ⟨⟨true, none⟩ :: rs, ?_, ?_⟩
      · simp only [RateLimiter.runChecks, hfirst t, hrun,
          List.singleton_append, if_neg (List.cons_ne_nil t ts')]
      · intro r hr
        rcases List.mem_cons.1 hr with h | h
        · rw [h]
        · exact hall r h
  constructor
  · intro ts _ hwin hlen
    obtain ⟨rs, hrun, hall⟩ := hrunfull ts hwin hlen
    exact ⟨rs, _, hrun, hall⟩
  · intro ts tlast _ hwin hlen
    have hwin' : ∀ x ∈ ts, a ≤ x ∧ x < a + w :=
      fun x hx => hwin x (List.mem_append_left _ hx)
    have htl : a ≤ tlast ∧ tlast < a + w :=
      hwin tlast (List.mem_append_right _ (List.mem_cons_self tlast []))
    obtain ⟨rs, hrun, hall⟩ := hrunfull ts hwin' (by omega)
    rcases ts with _ | ⟨t, ts'⟩
    · exfalso
      simp at hlen
      omega
    · have hts : a ≤ t := (hwin' t (List.mem_cons_self t ts')).1
      have hkeep : ∀ x ∈ t :: ts', ¬(x < tlast - w) := by
        intro x hx
        have := hwin' x hx
        omega
      have hdrop : (t :: ts').dropWhile (fun x => decide (x < tlast - w))
          = t :: ts' :=
        dropWhile_no_drop (fun x hx => by simp [hkeep x hx])
      have hlast : RateLimiter.check ⟨m, w, true, [(nid, t :: ts')]⟩ nid tlast
          = some (⟨false, some (max 0 ((t + w) - tlast))⟩,
              ⟨m, w, true, [(nid, t :: ts')]⟩) := by
        rw [check_eval_single m w nid (t :: ts') tlast hdrop,
          if_neg (by rw [hlen]; omega)]
      have hpos : 0 < (t + w) - tlast := by omega
      refine ⟨rs, ⟨false, some (max 0 ((t + w) - tlast))⟩,
        ⟨m, w, true, [(nid, t :: ts')]⟩, ?_, hall, rfl,
        max 0 ((t + w) - tlast), rfl, ?_⟩
      · rw [runChecks_append nid (t :: ts') [tlast], hrun]
        simp only [if_neg (List.cons_ne_nil t ts'), RateLimiter.runChecks,
          hlast]
      · rw [max_eq_right hpos.le]
        exact hpos

/-- Witness for C2: limit 1, window 10, calls at clock values 0 and 3. -/
theorem rate_limiter_sliding_window_witness :
    (∃ rs rl', RateLimiter.runChecks ⟨1, 10, true, []⟩ "n" [0]
        = some (rs, rl') ∧ ∀ r ∈ rs, r.allowed = true) ∧
    (∃ rs r rl', RateLimiter.runChecks ⟨1, 10, true, []⟩ "n" ([0] ++ [3])
        = some (rs ++ [r], rl') ∧
      (∀ x ∈ rs, x.allowed = true) ∧ r.allowed = false ∧
      ∃ v, r.retry_after_seconds = some v ∧ 0 < v) :=
  ⟨(rate_limiter_sliding_window 1 10 0 "n" (by decide)).1 [0]
      (List.chain'_singleton 0) (by decide) (by decide),
   (rate_limiter_sliding_window 1 10 0 "n" (by decide)).2 [0] 3
      (by norm_num [List.chain'_cons]) (by decide) (by decide)⟩

/-- In a map with pairwise-distinct keys, entries are determined by
their key. -/
theorem key_inj {α : Type} :
    ∀ {m : List (String × α)}, keysNodup m →
      ∀ p ∈ m, ∀ q ∈ m, p.1 = q.1 → p = q := by
  intro m
  induction m with
  | nil => intro _ p hp; exact absurd hp (List.not_mem_nil p)
  | cons r rest ih =>
    intro hnd p hp q hq hpq
    have hnd' : keysNodup rest := (List.nodup_cons.1 hnd).2
    have hrk : r.1 ∉ rest.map Prod.fst := (List.nodup_cons.1 hnd).1
    rcases List.mem_cons.1 hp with hp | hp <;>
      rcases List.mem_cons.1 hq with hq | hq
    · rw [hp, hq]
    · have hq1 : q.1 ∈ rest.map Prod.fst := List.mem_map_of_mem Prod.fst hq
      rw [hp] at hpq
      rw [← hpq] at hq1
      exact absurd hq1 hrk
    · have hp1 : p.1 ∈ rest.map Prod.fst := List.mem_map_of_mem Prod.fst hp
      rw [hq] at hpq
      rw [hpq] at hp1
      exact absurd hp1 hrk
    · exact ih hnd' p hp q hq hpq

/-- Deleting a list of keys one by one is filtering the map by
non-membership of the key in that list. -/
theorem foldl_adelete {α : Type} :
    ∀ (ks : List String) (m : List (String × α)),
      ks.foldl (fun l nid => adelete l nid) m
        = m.filter (fun p => decide (p.1 ∉ ks)) := by
  intro ks
  induction ks with
  | nil =>
    intro m
    simp [List.filter_true]
  | cons k ks ih =>
    intro m
    rw [List.foldl_cons, ih (adelete m k), adelete, List.filter_filter]
    refine List.filter_congr ?_
    intro p _
    by_cases h1 : p.1 = k <;> by_cases h2 : p.1 ∈ ks <;>
      simp [h1, h2, List.mem_cons]

/-- With pairwise-distinct keys, a key occurs among the keys of the
filtered map exactly when its own entry passes the filter. -/
theorem mem_filtered_keys {α : Type} {m : List (String × α)}
    (hnd : keysNodup m) (g : String × α → Bool) :
    ∀ p ∈ m, (p.1 ∈ (m.filter g).map Prod.fst ↔ g p = true) := by
  intro p hp
  constructor
  · intro h
    obtain ⟨q, hq, hqp⟩ := List.mem_map.1 h
    have hq' := List.mem_filter.1 hq
    have : q = p := key_inj hnd q hq'.1 p hp hqp
    exact this ▸ hq'.2
  · intro h
    exact List.mem_map_of_mem Prod.fst (List.mem_filter.2 ⟨hp, h⟩)

/-- Filtering by `g` after keeping only the elements failing `g` leaves
nothing. -/
theorem filter_not_filter {α : Type} (g : α → Bool) (l : List α) :
    (l.filter (fun a => !(g a))).filter g = [] := by
  rw [List.filter_eq_nil]
  intro a ha
  have h2 := (List.mem_filter.1 ha).2
  simp only [Bool.not_eq_true'] at h2
  simp [h2]

/-- `cleanup_*` deletions: with distinct keys, deleting exactly the
collected ids turns the map into the complement filter. -/
theorem cleanup_foldl_eq_filter {α : Type} (m : List (String × α))
    (hnd : keysNodup m) (g : String × α → Bool) :
    ((m.filter g).map Prod.fst).foldl (fun l nid => adelete l nid) m
      = m.filter (fun p => !(g p)) := by
  rw [foldl_adelete]
  refine List.filter_congr ?_
  intro p hp
  have h := mem_filtered_keys hnd g p hp
  by_cases hg : g p = true
  · simp [h.2 hg, hg]
  · have : p.1 ∉ (m.filter g).map Prod.fst := fun hc => hg (h.1 hc)
    simp only [Bool.not_eq_true] at hg
    simp [this, hg]

/-- C6: `cleanup_inactive` removes exactly the per-node entries whose
newest recorded timestamp is older than `now - inactive_seconds` or that
have no timestamps, keeps every other entry unchanged (the map becomes
the complement filter, entries verbatim and in order), and returns the
number of nodes removed. -/
theorem rate_limiter_cleanup_inactive_spec (rl : RateLimiter)
    (inactive_seconds now : Int) (hnd : keysNodup rl.node_timestamps) :
    (rl.cleanup_inactive inactive_seconds now).1
      = (rl.node_timestamps.filter
          (fun p => inactivePred (now - inactive_seconds) p.2)).length ∧
    (rl.cleanup_inactive inactive_seconds now).2.node_timestamps
      = rl.node_timestamps.filter
          (fun p => !(inactivePred (now - inactive_seconds) p.2)) := by
  constructor
  · simp [RateLimiter.cleanup_inactive]
  · simp only [RateLimiter.cleanup_inactive]
    exact cleanup_foldl_eq_filter rl.node_timestamps hnd _

/-- Witness for C6: three tracked nodes, two inactive (one stale, one
with no timestamps), one active. -/
theorem rate_limiter_cleanup_inactive_spec_witness :
    let rl : RateLimiter := ⟨3, 60, true, [("a", [1, 2]), ("b", []), ("c", [10])]⟩
    (rl.cleanup_inactive 5 10).1
      = (rl.node_timestamps.filter
          (fun p => inactivePred (10 - 5) p.2)).length ∧
    (rl.cleanup_inactive 5 10).2.node_timestamps
      = rl.node_timestamps.filter
          (fun p => !(inactivePred (10 - 5) p.2)) :=
  rate_limiter_cleanup_inactive_spec
    ⟨3, 60, true, [("a", [1, 2]), ("b", []), ("c", [10])]⟩ 5 10 (by decide)

/-- C5: `cleanup_expired_sessions` removes exactly the sessions whose
idle time strictly exceeds the timeout (the map becomes the complement
filter), returns the number removed, and a second call at the same time
removes zero sessions and leaves the map as it was. -/
theorem cleanup_expired_sessions_spec (sm : SessionManager) (now : Int)
    (hnd : keysNodup sm.sessions) :
    (sm.cleanup_expired_sessions now).1
      = (sm.sessions.filter
          (fun p => decide (sm.timeout < now - p.2.last_activity))).length ∧
    (sm.cleanup_expired_sessions now).2.sessions
      = sm.sessions.filter
          (fun p => !decide (sm.timeout < now - p.2.last_activity)) ∧
    ((sm.cleanup_expired_sessions now).2.cleanup_expired_sessions now).1
      = 0 ∧
    ((sm.cleanup_expired_sessions now).2.cleanup_expired_sessions now).2.sessions
      = (sm.cleanup_expired_sessions now).2.sessions := by
  have hmap : (sm.cleanup_expired_sessions now).2.sessions
      = sm.sessions.filter
          (fun p => !decide (sm.timeout < now - p.2.last_activity)) := by
    simp only [SessionManager.cleanup_expired_sessions]
    exact cleanup_foldl_eq_filter sm.sessions hnd _
  have htime : (sm.cleanup_expired_sessions now).2.timeout = sm.timeout := rfl
  have hnil : (sm.cleanup_expired_sessions now).2.sessions.filter
      (fun p => decide ((sm.cleanup_expired_sessions now).2.timeout
          < now - p.2.last_activity)) = [] := by
    rw [hmap, htime]
    exact filter_not_filter _ sm.sessions
  have second : ∀ sm2 : SessionManager,
      sm2.sessions.filter
        (fun p => decide (sm2.timeout < now - p.2.last_activity)) = [] →
      (sm2.cleanup_expired_sessions now).1 = 0 ∧
      (sm2.cleanup_expired_sessions now).2.sessions = sm2.sessions := by
    intro sm2 h
    constructor
    · simp [SessionManager.cleanup_expired_sessions, h]
    · simp [SessionManager.cleanup_expired_sessions, h]
  obtain ⟨h1, h2⟩ := second _ hnil
  exact ⟨by simp [SessionManager.cleanup_expired_sessions], hmap, h1, h2⟩

/-- Witness for C5: two sessions, one idle past the timeout. -/
theorem cleanup_expired_sessions_spec_witness :
    let sm : SessionManager :=
      ⟨[("a", ⟨"a", none, 0⟩), ("b", ⟨"b", none, 90⟩)], 60, 0⟩
    (sm.cleanup_expired_sessions 100).1
      = (sm.sessions.filter
          (fun p => decide (sm.timeout < 100 - p.2.last_activity))).length ∧
    (sm.cleanup_expired_sessions 100).2.sessions
      = sm.sessions.filter
          (fun p => !decide (sm.timeout < 100 - p.2.last_activity)) ∧
    ((sm.cleanup_expired_sessions 100).2.cleanup_expired_sessions 100).1
      = 0 ∧
    ((sm.cleanup_expired_sessions 100).2.cleanup_expired_sessions 100).2.sessions
      = (sm.cleanup_expired_sessions 100).2.sessions :=
  cleanup_expired_sessions_spec
    ⟨[("a", ⟨"a", none, 0⟩), ("b", ⟨"b", none, 90⟩)], 60, 0⟩ 100 (by decide)

/-- Looking up a key right after storing it finds the stored value. -/
theorem alookup_aupdate_self {α : Type} (l : List (String × α)) (k : String)
    (v : α) : alookup (aupdate l k v) k = some v := by
  induction l with
  | nil => simp [aupdate, alookup]
  | cons p rest ih =>
    rcases p with ⟨k', v'⟩
    by_cases h : k' = k
    · simp [aupdate, h, alookup]
    · simp [aupdate, h, alookup, ih]

/-- C7: every `get_session` call — hit or create — returns a session
stamped with the current time, and the map holds that same session under
the node's id. -/
theorem get_session_refreshes_activity (sm : SessionManager)
    (node_id : String) (now : Int) :
    ∃ s : Session, (sm.get_session node_id now).1 = some s ∧
      s.last_activity = now ∧
      alookup (sm.get_session node_id now).2.sessions node_id = some s := by
  rcases h0 : alookup sm.sessions node_id with _ | s₀
  · have h1 : (alookup sm.sessions node_id).isNone = true := by
      simp [h0]
    simp only [SessionManager.get_session, h1, if_true]
    generalize (if 0 < sm.max_sessions then
        SessionManager.evictLoopFuel (sm.sessions.length + 1) sm
      else sm) = base
    have h2 : alookup (aupdate base.sessions node_id
        (⟨node_id, none, now⟩ : Session)) node_id
        = some ⟨node_id, none, now⟩ := alookup_aupdate_self _ _ _
    rw [h2]
    exact ⟨⟨node_id, none, now⟩, rfl, rfl, alookup_aupdate_self _ _ _⟩
  · have h1 : (alookup sm.sessions node_id).isNone = false := by
      simp [h0]
    simp only [SessionManager.get_session, h1, Bool.false_eq_true, if_false]
    rw [h0]
    exact ⟨s₀.update_activity now, rfl, rfl, alookup_aupdate_self _ _ _⟩

/-- A key is absent exactly when lookup fails. -/
theorem alookup_eq_none_iff {α : Type} :
    ∀ (l : List (String × α)) (k : String),
      alookup l k = none ↔ k ∉ l.map Prod.fst := by
  intro l k
  induction l with
  | nil => simp [alookup]
  | cons p rest ih =>
    rcases p with ⟨k', v'⟩
    by_cases h : k' = k
    · simp [alookup, h]
    · simp [alookup, h, ih, Ne.symm h]

/-- Lookup after store, in general. -/
theorem alookup_aupdate {α : Type} :
    ∀ (l : List (String × α)) (k k' : String) (v : α),
      alookup (aupdate l k v) k'
        = if k' = k then some v else alookup l k' := by
  intro l k k' v
  induction l with
  | nil =>
    by_cases h : k' = k <;> simp [aupdate, alookup, h, Ne.symm]
  | cons p rest ih =>
    rcases p with ⟨k₀, v₀⟩
    by_cases h0 : k₀ = k
    · by_cases h : k' = k
      · simp [aupdate, alookup, h0, h]
      · have hkk : ¬(k = k') := fun hc => h hc.symm
        simp [aupdate, alookup, h0, h, hkk]
    · by_cases h1 : k₀ = k'
      · have hkk : ¬(k' = k) := fun hc => h0 (h1.trans hc)
        simp [aupdate, alookup, h0, h1, hkk]
      · simp [aupdate, alookup, h0, h1, ih]

/-- Lookup after delete, in general. -/
theorem alookup_adelete {α : Type} :
    ∀ (l : List (String × α)) (j k : String),
      alookup (adelete l j) k = if k = j then none else alookup l k := by
  intro l j k
  induction l with
  | nil => by_cases h : k = j <;> simp [adelete, alookup, h]
  | cons p rest ih =>
    rcases p with ⟨k₀, v₀⟩
    simp only [adelete, List.filter_cons] at ih ⊢
    by_cases h0 : k₀ = j
    · have hr : (decide ¬(k₀ = j)) = false := by simp [h0]
      rw [hr]
      simp only [Bool.false_eq_true, if_false]
      rw [ih]
      by_cases h : k = j
      · simp [h]
      · have h1 : ¬(k₀ = k) := fun hc => h (hc ▸ h0)
        simp [alookup, h, h1]
    · have hr : (decide ¬(k₀ = j)) = true := by simp [h0]
      rw [hr]
      simp only [if_true]
      by_cases h1 : k₀ = k
      · have hkj : ¬(k = j) := fun hc => h0 (h1.trans hc)
        simp [alookup, h1, hkj]
      · simp only [alookup, if_neg h1]
        exact ih

/-- Storing twice at the same key keeps only the second value. -/
theorem aupdate_aupdate_self {α : Type} :
    ∀ (l : List (String × α)) (k : String) (v v' : α),
      aupdate (aupdate l k v) k v' = aupdate l k v' := by
  intro l k v v'
  induction l with
  | nil => simp [aupdate]
  | cons p rest ih =>
    rcases p with ⟨k₀, v₀⟩
    by_cases h0 : k₀ = k
    · simp [aupdate, h0]
    · simp [aupdate, h0, ih]

/-- A store grows the map by one entry exactly when the key was absent. -/
theorem aupdate_length {α : Type} :
    ∀ (l : List (String × α)) (k : String) (v : α),
      (aupdate l k v).length
        = if (alookup l k).isSome then l.length else l.length + 1 := by
  intro l k v
  induction l with
  | nil => simp [aupdate, alookup]
  | cons p rest ih =>
    rcases p with ⟨k₀, v₀⟩
    by_cases h0 : k₀ = k
    · simp [aupdate, alookup, h0]
    · simp only [aupdate, alookup, if_neg h0, List.length_cons, ih]
      by_cases h : (alookup rest k).isSome <;> simp [h]

/-- Deleting the key of a present entry shrinks the map. -/
theorem adelete_length_lt {α : Type} :
    ∀ (l : List (String × α)), ∀ p ∈ l,
      (adelete l p.1).length < l.length := by
  intro l
  induction l with
  | nil => intro p hp; exact absurd hp (List.not_mem_nil p)
  | cons r rest ih =>
    intro p hp
    simp only [adelete, List.filter_cons]
    rcases List.mem_cons.1 hp with hp | hp
    · have hr : (decide ¬(r.1 = p.1)) = false := by simp [hp]
      rw [hr]
      simp only [Bool.false_eq_true, if_false, List.length_cons]
      have := List.length_filter_le (fun x => decide ¬(x.1 = p.1)) rest
      omega
    · by_cases hr : r.1 = p.1
      · have hr' : (decide ¬(r.1 = p.1)) = false := by simp [hr]
        rw [hr']
        simp only [Bool.false_eq_true, if_false, List.length_cons]
        have := List.length_filter_le (fun x => decide ¬(x.1 = p.1)) rest
        omega
      · have hr' : (decide ¬(r.1 = p.1)) = true := by simp [hr]
        rw [hr']
        simp only [if_true, List.length_cons]
        have h2 := ih p hp
        simp only [adelete] at h2
        omega

/-- With pairwise-distinct keys, deleting a present entry's key removes
exactly that one entry. -/
theorem adelete_length_nodup {α : Type} :
    ∀ (l : List (String × α)), keysNodup l →
      ∀ p ∈ l, (adelete l p.1).length + 1 = l.length := by
  intro l
  induction l with
  | nil => intro _ p hp; exact absurd hp (List.not_mem_nil p)
  | cons r rest ih =>
    intro hnd p hp
    have hnd' : keysNodup rest := (List.nodup_cons.1 hnd).2
    have hrk : r.1 ∉ rest.map Prod.fst := (List.nodup_cons.1 hnd).1
    simp only [adelete, List.filter_cons]
    rcases List.mem_cons.1 hp with hp | hp
    · have hr : (decide ¬(r.1 = p.1)) = false := by simp [hp]
      rw [hr]
      simp only [Bool.false_eq_true, if_false, List.length_cons]
      have hkeep : rest.filter (fun x => decide ¬(x.1 = p.1)) = rest := by
        rw [List.filter_eq_self]
        intro x hx
        simp only [decide_eq_true_eq]
        intro hc
        have hx1 : x.1 ∈ rest.map Prod.fst := List.mem_map_of_mem Prod.fst hx
        rw [hc] at hx1
        rw [hp] at hx1
        exact hrk hx1
      rw [hkeep]
    · have hrp : ¬(r.1 = p.1) := by
        intro hc
        have hp1 : p.1 ∈ rest.map Prod.fst := List.mem_map_of_mem Prod.fst hp
        rw [← hc] at hp1
        exact hrk hp1
      have hr : (decide ¬(r.1 = p.1)) = true := by simp [hrp]
      rw [hr]
      simp only [if_true, List.length_cons]
      have h2 := ih hnd' p hp
      simp only [adelete] at h2
      omega

/-- `oldestEntry` is `none` only on the empty map. -/
theorem oldestEntry_eq_none {l : List (String × Session)} :
    oldestEntry l = none ↔ l = [] := by
  cases l <;> simp [oldestEntry]

/-- The oldest entry is an entry of the map. -/
theorem oldestEntry_mem :
    ∀ {l : List (String × Session)} {q : String × Session},
      oldestEntry l = some q → q ∈ l := by
  intro l
  induction l with
  | nil => intro q h; simp [oldestEntry] at h
  | cons p rest ih =>
    intro q h
    simp only [oldestEntry] at h
    rcases hr : oldestEntry rest with _ | q'
    · rw [hr] at h
      simp at h
      simp [h.symm]
    · rw [hr] at h
      simp only [Option.some.injEq] at h
      by_cases hcmp : q'.2.last_activity < p.2.last_activity
      · rw [if_pos hcmp] at h
        exact List.mem_cons_of_mem p (h ▸ ih hr)
      · rw [if_neg hcmp] at h
        simp [h.symm]

/-- The oldest entry minimises `last_activity` over the map. -/
theorem oldestEntry_min :
    ∀ {l : List (String × Session)} {q : String × Session},
      oldestEntry l = some q →
      ∀ p ∈ l, q.2.last_activity ≤ p.2.last_activity := by
  intro l
  induction l with
  | nil => intro q h; simp [oldestEntry] at h
  | cons p₀ rest ih =>
    intro q h x hx
    simp only [oldestEntry] at h
    rcases hr : oldestEntry rest with _ | q'
    · rw [hr] at h
      simp only [Option.some.injEq] at h
      have : rest = [] := oldestEntry_eq_none.1 hr
      subst this
      simp at hx
      rw [← h, hx]
    · rw [hr] at h
      simp only [Option.some.injEq] at h
      rcases List.mem_cons.1 hx with hx | hx
      · by_cases hcmp : q'.2.last_activity < p₀.2.last_activity
        · rw [if_pos hcmp] at h
          rw [← h, hx]
          exact hcmp.le
        · rw [if_neg hcmp] at h
          rw [← h, hx]
      · by_cases hcmp : q'.2.last_activity < p₀.2.last_activity
        · rw [if_pos hcmp] at h
          exact h ▸ ih hr x hx
        · rw [if_neg hcmp] at h
          rw [← h]
          exact le_trans (not_lt.1 hcmp) (ih hr x hx)

/-- Eviction touches only the session map. -/
theorem evict_preserves_fields (sm : SessionManager) :
    (sm.evict_oldest_session).2.max_sessions = sm.max_sessions ∧
    (sm.evict_oldest_session).2.timeout = sm.timeout := by
  rcases h : oldestEntry sm.sessions with _ | q <;>
    simp [SessionManager.evict_oldest_session, h]

/-- The eviction loop is the identity once the map is below the cap. -/
theorem evictLoopFuel_of_lt (fuel : Nat) (sm : SessionManager)
    (h : ¬(sm.max_sessions ≤ (sm.sessions.length : Int))) :
    SessionManager.evictLoopFuel fuel sm = sm := by
  cases fuel <;> simp [SessionManager.evictLoopFuel, h]

/-- The eviction loop touches only the session map. -/
theorem evictLoopFuel_max :
    ∀ (fuel : Nat) (sm : SessionManager),
      (SessionManager.evictLoopFuel fuel sm).max_sessions = sm.max_sessions := by
  intro fuel
  induction fuel with
  | zero => intro sm; rfl
  | succ fuel ih =>
    intro sm
    by_cases h : sm.max_sessions ≤ (sm.sessions.length : Int)
    · simp only [SessionManager.evictLoopFuel, if_pos h, ih]
      exact (evict_preserves_fields sm).1
    · simp [SessionManager.evictLoopFuel, h]

/-- With enough fuel, the eviction loop of `get_session` drives the
session count strictly below a positive cap: each pass shortens the map,
so fuel exceeding the initial length reaches the loop's exit
condition. -/
theorem evictLoopFuel_lt :
    ∀ (fuel : Nat) (sm : SessionManager), 0 < sm.max_sessions →
      sm.sessions.length < fuel →
      ((SessionManager.evictLoopFuel fuel sm).sessions.length : Int)
        < sm.max_sessions := by
  intro fuel
  induction fuel with
  | zero => intro sm _ h; omega
  | succ fuel ih =>
    intro sm hpos hfuel
    by_cases h : sm.max_sessions ≤ (sm.sessions.length : Int)
    · have hne : sm.sessions ≠ [] := by
        intro hc
        rw [hc] at h
        simp at h
        omega
      rcases hq : oldestEntry sm.sessions with _ | q
      · exact absurd (oldestEntry_eq_none.1 hq) hne
      · have hmem := oldestEntry_mem hq
        have hlt := adelete_length_lt sm.sessions q hmem
        have hstep : (sm.evict_oldest_session).2
            = { sm with sessions := adelete sm.sessions q.1 } := by
          simp [SessionManager.evict_oldest_session, hq]
        simp only [SessionManager.evictLoopFuel, if_pos h, hstep]
        have := ih { sm with sessions := adelete sm.sessions q.1 }
          (by simpa using hpos) (by simpa using by omega)
        simpa using this
    · rw [evictLoopFuel_of_lt (fuel + 1) sm h]
      omega

/-- C10: with a positive cap, `active_session_count ≤ max_sessions` is an
invariant of the session manager: a `get_session` that creates (node id
absent) lands at or below the cap from any starting state — even one
above the cap, because eviction repeats until under the cap before
creating; a `get_session` hit preserves the bound; and `remove_session`
and `cleanup_expired_sessions` never increase the session count. -/
theorem session_cap_invariant :
    (∀ (sm : SessionManager) (node_id : String) (now : Int),
        0 < sm.max_sessions → alookup sm.sessions node_id = none →
        (((sm.get_session node_id now).2.sessions.length : Int)
          ≤ sm.max_sessions)) ∧
    (∀ (sm : SessionManager) (node_id : String) (now : Int),
        0 < sm.max_sessions →
        (sm.sessions.length : Int) ≤ sm.max_sessions →
        (((sm.get_session node_id now).2.sessions.length : Int)
          ≤ sm.max_sessions)) ∧
    (∀ (sm : SessionManager) (node_id : String),
        (sm.remove_session node_id).2.sessions.length
          ≤ sm.sessions.length) ∧
    (∀ (sm : SessionManager) (now : Int),
        (sm.cleanup_expired_sessions now).2.sessions.length
          ≤ sm.sessions.length) := by
  have hcreate : ∀ (sm : SessionManager) (node_id : String) (now : Int),
      0 < sm.max_sessions → alookup sm.sessions node_id = none →
      (((sm.get_session node_id now).2.sessions.length : Int)
        ≤ sm.max_sessions) := by
    intro sm node_id now hpos habs
    have h1 : (alookup sm.sessions node_id).isNone = true := by simp [habs]
    simp only [SessionManager.get_session, h1, if_true, if_pos hpos]
    set base := SessionManager.evictLoopFuel (sm.sessions.length + 1) sm
      with hbase
    have hblt : ((base.sessions.length : Int)) < sm.max_sessions :=
      evictLoopFuel_lt (sm.sessions.length + 1) sm hpos (by omega)
    set created := aupdate base.sessions node_id
      (⟨node_id, none, now⟩ : Session) with hcreated
    have hlook : alookup created node_id = some ⟨node_id, none, now⟩ :=
      alookup_aupdate_self _ _ _
    rw [hlook]
    have hlen1 : created.length ≤ base.sessions.length + 1 := by
      rw [hcreated, aupdate_length]
      by_cases h : (alookup base.sessions node_id).isSome <;> simp [h]
    have hlen2 : (aupdate created node_id
        ((⟨node_id, none, now⟩ : Session).update_activity now)).length
        = created.length := by
      rw [aupdate_length, if_pos (by simp [hlook])]
    simp only [hlen2]
    omega
  have hhit : ∀ (sm : SessionManager) (node_id : String) (now : Int),
      0 < sm.max_sessions →
      (sm.sessions.length : Int) ≤ sm.max_sessions →
      (((sm.get_session node_id now).2.sessions.length : Int)
        ≤ sm.max_sessions) := by
    intro sm node_id now hpos hbound
    rcases habs : alookup sm.sessions node_id with _ | s₀
    · exact hcreate sm node_id now hpos habs
    · have h1 : (alookup sm.sessions node_id).isNone = false := by simp [habs]
      simp only [SessionManager.get_session, h1, Bool.false_eq_true, if_false]
      rw [habs]
      have : (aupdate sm.sessions node_id (s₀.update_activity now)).length
          = sm.sessions.length := by
        rw [aupdate_length, if_pos (by simp [habs])]
      simp only [this]
      exact hbound
  refine ⟨hcreate, hhit, ?_, ?_⟩
  · intro sm node_id
    by_cases h : (alookup sm.sessions node_id).isSome
    · simp only [SessionManager.remove_session, if_pos h]
      exact List.length_filter_le _ _
    · simp [SessionManager.remove_session, h]
  · intro sm now
    simp only [SessionManager.cleanup_expired_sessions, foldl_adelete]
    exact List.length_filter_le _ _

/-- Witness for C10 at a concrete manager holding two sessions with a
cap of two. -/
theorem session_cap_invariant_witness :
    let sm : SessionManager :=
      ⟨[("a", ⟨"a", none, 0⟩), ("b", ⟨"b", none, 5⟩)], 60, 2⟩
    (((sm.get_session "c" 9).2.sessions.length : Int) ≤ sm.max_sessions) ∧
    (((sm.get_session "a" 9).2.sessions.length : Int) ≤ sm.max_sessions) ∧
    ((sm.remove_session "a").2.sessions.length ≤ sm.sessions.length) ∧
    ((sm.cleanup_expired_sessions 100).2.sessions.length
      ≤ sm.sessions.length) :=
  ⟨session_cap_invariant.1 _ "c" 9 (by decide) (by decide),
   (session_cap_invariant.2).1 _ "a" 9 (by decide) (by decide),
   (session_cap_invariant.2).2.1 _ "a",
   (session_cap_invariant.2).2.2 _ 100⟩

/-- C1: with a positive cap, a `get_session` for an unknown node on a
map exactly at capacity (keys distinct, as in a Python dict) evicts
exactly one session — one attaining the least recent `last_activity`,
and never the session being created; the new session is then created, so
the final map holds precisely the new node id plus every previous node
id other than the single evicted one, and the session count is
unchanged. -/
theorem get_session_evicts_exactly_one (sm : SessionManager)
    (node_id : String) (now : Int) (hnd : keysNodup sm.sessions)
    (hpos : 0 < sm.max_sessions)
    (habs : alookup sm.sessions node_id = none)
    (hcap : (sm.sessions.length : Int) = sm.max_sessions) :
    ∃ q, oldestEntry sm.sessions = some q ∧
      (∀ p ∈ sm.sessions, q.2.last_activity ≤ p.2.last_activity) ∧
      q.1 ≠ node_id ∧
      (∀ k : String,
        (alookup (sm.get_session node_id now).2.sessions k).isSome
          ↔ (k = node_id ∨
              ((alookup sm.sessions k).isSome ∧ k ≠ q.1))) ∧
      (sm.get_session node_id now).2.sessions.length
        = sm.sessions.length := by
  have hne : sm.sessions ≠ [] := by
    intro hc
    rw [hc] at hcap
    simp at hcap
    omega
  rcases hq : oldestEntry sm.sessions with _ | q
  · exact absurd (oldestEntry_eq_none.1 hq) hne
  have hmem := oldestEntry_mem hq
  have hqs : q.1 ∈ sm.sessions.map Prod.fst :=
    List.mem_map_of_mem Prod.fst hmem
  have hnid_not : node_id ∉ sm.sessions.map Prod.fst :=
    (alookup_eq_none_iff _ _).1 habs
  have hqnid : q.1 ≠ node_id := fun hc => hnid_not (hc ▸ hqs)
  have hcond : sm.max_sessions ≤ (sm.sessions.length : Int) := by omega
  have hstep : (sm.evict_oldest_session).2
      = { sm with sessions := adelete sm.sessions q.1 } := by
    simp [SessionManager.evict_oldest_session, hq]
  have hlen2 : (adelete sm.sessions q.1).length + 1 = sm.sessions.length :=
    adelete_length_nodup sm.sessions hnd q hmem
  have hlen2' : ((adelete sm.sessions q.1).length : Int) + 1
      = (sm.sessions.length : Int) := by exact_mod_cast hlen2
  have hloop : SessionManager.evictLoopFuel (sm.sessions.length + 1) sm
      = { sm with sessions := adelete sm.sessions q.1 } := by
    have h2 : ¬(({ sm with sessions := adelete sm.sessions q.1 } :
        SessionManager).max_sessions
        ≤ (({ sm with sessions := adelete sm.sessions q.1 } :
            SessionManager).sessions.length : Int)) := by
      show ¬(sm.max_sessions ≤ ((adelete sm.sessions q.1).length : Int))
      omega
    calc SessionManager.evictLoopFuel (sm.sessions.length + 1) sm
        = SessionManager.evictLoopFuel sm.sessions.length
            { sm with sessions := adelete sm.sessions q.1 } := by
          simp only [SessionManager.evictLoopFuel, if_pos hcond, hstep]
      _ = { sm with sessions := adelete sm.sessions q.1 } :=
          evictLoopFuel_of_lt _ _ h2
  have h1 : (alookup sm.sessions node_id).isNone = true := by simp [habs]
  have habs2 : alookup (adelete sm.sessions q.1) node_id = none := by
    rw [alookup_adelete, if_neg (fun hc => hqnid hc.symm)]
    exact habs
  have hget : (sm.get_session node_id now).2.sessions
      = aupdate (adelete sm.sessions q.1) node_id
          ((⟨node_id, none, now⟩ : Session).update_activity now) := by
    simp only [SessionManager.get_session, h1, if_true, if_pos hpos, hloop]
    rw [alookup_aupdate_self]
    simp [aupdate_aupdate_self]
  refine ⟨q, rfl, oldestEntry_min hq, hqnid, ?_, ?_⟩
  · intro k
    rw [hget, alookup_aupdate, alookup_adelete]
    by_cases hk1 : k = node_id
    · simp [hk1]
    · by_cases hk2 : k = q.1
      · simp [hk1, hk2]
      · simp [hk1, hk2]
  · rw [hget, aupdate_length, if_neg (by simp [habs2])]
    exact hlen2

/-- Witness for C1: two sessions at a cap of two, a third node arrives;
the session with `last_activity = 3` is the oldest. -/
theorem get_session_evicts_exactly_one_witness :
    let sm : SessionManager :=
      ⟨[("a", ⟨"a", none, 5⟩), ("b", ⟨"b", none, 3⟩)], 60, 2⟩
    ∃ q, oldestEntry sm.sessions = some q ∧
      (∀ p ∈ sm.sessions, q.2.last_activity ≤ p.2.last_activity) ∧
      q.1 ≠ "c" ∧
      (∀ k : String,
        (alookup (sm.get_session "c" 9).2.sessions k).isSome
          ↔ (k = "c" ∨
              ((alookup sm.sessions k).isSome ∧ k ≠ q.1))) ∧
      (sm.get_session "c" 9).2.sessions.length = sm.sessions.length :=
  get_session_evicts_exactly_one
    ⟨[("a", ⟨"a", none, 5⟩), ("b", ⟨"b", none, 3⟩)], 60, 2⟩ "c" 9
    (by decide) (by decide) (by decide) (by decide)

/-- The slicer reassembles: with a positive budget, joining the payloads
gives back the text, and every fragment fits in budget + marker
overhead. -/
theorem buildFragments_spec (budget : Nat) (hb : budget ≠ 0) :
    ∀ (n : Nat) (s : List Char), s.length ≤ n →
      ((buildFragments budget s).map Fragment.payload).join = s ∧
      ∀ f ∈ buildFragments budget s, f.size ≤ budget + markerOverhead := by
  intro n
  induction n with
  | zero =>
    intro s hs
    have hsnil : s = [] := List.length_eq_zero.1 (Nat.le_zero.1 hs)
    subst hsnil
    refine ⟨by simp [buildFragments], ?_⟩
    intro f hf
    simp [buildFragments] at hf
  | succ n ih =>
    intro s hs
    by_cases hnil : s = []
    · subst hnil
      refine ⟨by simp [buildFragments], ?_⟩
      intro f hf
      simp [buildFragments] at hf
    · have hguard : ¬(s = [] ∨ budget = 0) := by
        push_neg
        exact ⟨hnil, hb⟩
      rw [buildFragments, dif_neg hguard]
      by_cases hrest : (s.drop budget).isEmpty
      · have hrest' : s.drop budget = [] := by
          rwa [List.isEmpty_iff] at hrest
        have hslen : s.length ≤ budget := by
          have h1 : (s.drop budget).length = 0 := by rw [hrest']; rfl
          rw [List.length_drop] at h1
          omega
        rw [if_pos hrest]
        refine ⟨by simp [List.take_of_length_le hslen], ?_⟩
        intro f hf
        simp only [List.mem_singleton] at hf
        subst hf
        have h2 : (s.take budget).length ≤ budget := by
          simp [List.length_take]
        simp only [Fragment.size, List.length_nil]
        omega
      · rw [if_neg hrest]
        have hrlen : (s.drop budget).length ≤ n := by
          rw [List.length_drop]
          have h2 : s.length ≠ 0 := fun hc => hnil (List.length_eq_zero.1 hc)
          omega
        obtain ⟨ihj, ihs⟩ := ih (s.drop budget) hrlen
        constructor
        · simp only [List.map_cons, List.join_cons, ihj]
          exact List.take_append_drop budget s
        · intro f hf
          rcases List.mem_cons.1 hf with hf | hf
          · subst hf
            have h2 : (s.take budget).length ≤ budget := by
              simp [List.length_take]
            simp only [Fragment.size, markerOverhead]
            omega
          · exact ihs f hf

/-- C4: `split` on text within the limit is one fragment identical to
the input with no marker; on longer text (when the limit can fit the
marker overhead at all), joining the fragments' payload portions
reconstructs the text exactly and every fragment's total size is within
the limit. -/
theorem content_chunker_split_spec (text : List Char) (limit : Nat) :
    (text.length ≤ limit →
      ContentChunker.split text limit = some [⟨text, []⟩]) ∧
    (limit < text.length → markerOverhead < limit →
      ∃ frags, ContentChunker.split text limit = some frags ∧
        ((frags.map Fragment.payload).join = text) ∧
        ∀ f ∈ frags, f.size ≤ limit) := by
  constructor
  · intro h
    simp [ContentChunker.split, h]
  · intro h1 h2
    have hb : limit - markerOverhead ≠ 0 := by omega
    refine ⟨buildFragments (limit - markerOverhead) text, ?_, ?_, ?_⟩
    · simp only [ContentChunker.split]
      rw [if_neg (by omega), if_neg (by omega)]
    · exact (buildFragments_spec _ hb text.length text le_rfl).1
    · intro f hf
      have h3 := (buildFragments_spec _ hb text.length text le_rfl).2 f hf
      omega

/-- Witness for C4: a short text passes through; an 8-character text at
limit 5 is chunked, rejoins, and each fragment fits. -/
theorem content_chunker_split_spec_witness :
    (ContentChunker.split ['h', 'i'] 5
      = some [⟨['h', 'i'], []⟩]) ∧
    (∃ frags, ContentChunker.split
        ['a', 'b', 'c', 'd', 'e', 'f', 'g', 'h'] 5 = some frags ∧
      ((frags.map Fragment.payload).join
        = ['a', 'b', 'c', 'd', 'e', 'f', 'g', 'h']) ∧
      ∀ f ∈ frags, f.size ≤ 5) :=
  ⟨(content_chunker_split_spec ['h', 'i'] 5).1 (by decide),
   (content_chunker_split_spec
      ['a', 'b', 'c', 'd', 'e', 'f', 'g', 'h'] 5).2 (by decide) (by decide)⟩

/-- Appending a fresh cell does not disturb existing cells. -/
theorem readCell_append_lt (σ : SetStore) (x : List String) {i : Nat}
    (h : i < σ.length) : readCell (σ ++ [x]) i = readCell σ i := by
  simp only [readCell]
  rw [List.get?_eq_getElem?, List.get?_eq_getElem?, List.getElem?_append]
  simp [h]

/-- The fresh cell holds what was stored in it. -/
theorem readCell_append_self (σ : SetStore) (x : List String) :
    readCell (σ ++ [x]) σ.length = x := by
  simp only [readCell]
  rw [List.get?_eq_getElem?, List.getElem?_append]
  simp

/-- Writing one cell does not disturb a different cell. -/
theorem readCell_set_ne (σ : SetStore) (v : List String) {i j : Nat}
    (h : i ≠ j) : readCell (writeCell σ j v) i = readCell σ i := by
  simp only [readCell, writeCell]
  rw [List.get?_eq_getElem?, List.get?_eq_getElem?,
    List.getElem?_set_ne (Ne.symm h)]

/-- C8: the allowlist/denylist accessors hand out defensive copies: the
returned set object has the same contents as the internal one, and
mutating the returned object changes neither any later `is_allowed`
decision nor the contents of either internal set (so later accessor
calls still see the original contents). -/
theorem node_filter_defensive_copy (σ : SetStore) (f : NodeFilterRefs)
    (ha : f.allowRef < σ.length) (hd : f.denyRef < σ.length) :
    ∀ r0 ∈ [f.allowRef, f.denyRef],
      readCell (copyAccessor σ r0).2 (copyAccessor σ r0).1
        = readCell σ r0 ∧
      ∀ v : List String,
        (∀ nid, NodeFilterRefs.is_allowed
            (writeCell (copyAccessor σ r0).2 (copyAccessor σ r0).1 v) f nid
          = NodeFilterRefs.is_allowed σ f nid) ∧
        readCell (writeCell (copyAccessor σ r0).2 (copyAccessor σ r0).1 v)
            f.allowRef = readCell σ f.allowRef ∧
        readCell (writeCell (copyAccessor σ r0).2 (copyAccessor σ r0).1 v)
            f.denyRef = readCell σ f.denyRef := by
  intro r0 hr0
  simp only [copyAccessor]
  have hwa : ∀ v, readCell (writeCell (σ ++ [readCell σ r0]) σ.length v)
      f.allowRef = readCell σ f.allowRef := by
    intro v
    rw [readCell_set_ne _ _ (by omega), readCell_append_lt _ _ ha]
  have hwd : ∀ v, readCell (writeCell (σ ++ [readCell σ r0]) σ.length v)
      f.denyRef = readCell σ f.denyRef := by
    intro v
    rw [readCell_set_ne _ _ (by omega), readCell_append_lt _ _ hd]
  refine ⟨readCell_append_self σ _, ?_⟩
  intro v
  refine ⟨?_, hwa v, hwd v⟩
  intro nid
  simp only [NodeFilterRefs.is_allowed, hwa v, hwd v]

/-- Witness for C8: a two-cell store holding the allowlist and the
denylist; overwriting the copy with a new set changes nothing visible. -/
theorem node_filter_defensive_copy_witness :
    let σ : SetStore := [["x"], ["y"]]
    let f : NodeFilterRefs := ⟨0, 1, true⟩
    ∀ r0 ∈ [f.allowRef, f.denyRef],
      readCell (copyAccessor σ r0).2 (copyAccessor σ r0).1
        = readCell σ r0 ∧
      ∀ v : List String,
        (∀ nid, NodeFilterRefs.is_allowed
            (writeCell (copyAccessor σ r0).2 (copyAccessor σ r0).1 v) f nid
          = NodeFilterRefs.is_allowed σ f nid) ∧
        readCell (writeCell (copyAccessor σ r0).2 (copyAccessor σ r0).1 v)
            f.allowRef = readCell σ f.allowRef ∧
        readCell (writeCell (copyAccessor σ r0).2 (copyAccessor σ r0).1 v)
            f.denyRef = readCell σ f.denyRef :=
  node_filter_defensive_copy [["x"], ["y"]] ⟨0, 1, true⟩
    (by decide) (by decide)
